import Mathlib

/-!
# FileMetadata core: shallow embedding

A Lean 4 embedding of the metadata store of the FileMetadata repository
(`models_metadata_model.py`, `utils_metadata_manager.py`,
`models_search_model.py`, `utils_access_safety.py`), together with proofs
about its backup policy, protected-path gating, record-set invariants and
search semantics.

Modelling conventions:
* A pandas row is an association list from column names to cells.  A cell is
  `Option String`: `none` models a missing value (`NaN`).  A key absent from
  the association list also reads as `none`, matching how `pd.concat` fills
  missing columns of a partial row with `NaN`.
* A `DF` carries its column list and its rows, in order.
* Python `datetime.now()` values and backup timestamps are threaded in as
  explicit string parameters (`now`, `ts`).
* Disk contents are reduced to what the code observes: `excelExists` models
  `os.path.exists(self.excel_path)`, and the backup directory is the list of
  `(file name, written record set)` pairs.  I/O itself is assumed to succeed;
  the exceptional branches modelled are the ones the code takes on ordinary
  data (missing files on add, `KeyError` on unknown columns, `TypeError`
  inside `sorted`).
* Paths are taken to be already in `os.path.normpath` normal form with `/`
  separators, so `normpath` is the identity on them.
-/

/-- A pandas cell: `none` is a missing value (`NaN`). -/
abbrev Cell := Option String

/-- A row: association list from column name to cell. -/
abbrev Row := List (String × Cell)

/-- Reading a key from an association list; an absent key reads as `none`
(the row has `NaN` in that column). -/
def cellGet (r : Row) (c : String) : Cell :=
  match r.find? (fun p => p.1 = c) with
  | some p => p.2
  | none => none

/-- Python `dict` assignment `d[k] = v`: replace in place when the key is
present (keeping its position), append otherwise. -/
def setKey {α β : Type} [DecidableEq α] (l : List (α × β)) (k : α) (v : β) :
    List (α × β) :=
  if l.any (fun p => p.1 = k) then
    l.map (fun p => if p.1 = k then (k, v) else p)
  else l ++ [(k, v)]

/-- Python `dict` lookup `d.get(k)` / `d[k]`. -/
def lookupKey {α β : Type} [DecidableEq α] (l : List (α × β)) (k : α) :
    Option β :=
  match l.find? (fun p => p.1 = k) with
  | some p => some p.2
  | none => none

/-- A dataframe: column list plus rows in order. -/
structure DF where
  cols : List String
  rows : List Row
deriving DecidableEq

/-- The values of one column, in row order (the caller checks the column
exists). -/
def colValues (df : DF) (field : String) : List Cell :=
  df.rows.map (fun r => cellGet r field)

/-- Python's `<=` on strings: code-point lexicographic order on the
character sequences. -/
def strLe (a b : String) : Bool :=
  decide (a.toList ≤ b.toList)

/-- Python's `str.lower()`, as the lowered character sequence (ASCII-faithful). -/
def lowerStr (s : String) : List Char :=
  s.toList.map Char.toLower

/-- `needle` occurs as a contiguous substring of `hay` (on character
lists). -/
def charsContains (hay needle : List Char) : Bool :=
  hay.tails.any (fun t => needle.isPrefixOf t)

/-- Case-insensitive substring containment of strings, the reading "field
value case-insensitively contains the given value as a substring". -/
def containsCI (t s : String) : Bool :=
  charsContains (lowerStr t) (lowerStr s)

/-- Token of the regular-expression fragment that `pandas.Series.str.contains`
(with its default `regex=True`) actually exercises here: every character
other than `.` is a literal, and `.` matches any character except a
newline. -/
inductive RTok where
  | lit (c : Char)
  | dot
deriving DecidableEq

/-- Compile a pattern character sequence into the fragment: `.` becomes the
wildcard, everything else is literal.  This is exact Python-`re` behaviour
only for patterns whose non-`.` characters are all ordinary (no other
metacharacter, see `reMetachars`); patterns outside that fragment —
including invalid ones, where `re.error` is raised and the handler returns
the empty frame — are NOT modelled faithfully, and no theorem below relies
on the matcher's value there: positive statements about scalar criteria are
restricted to metacharacter-free values, and the concrete divergence
counterexample uses only the `.` wildcard. -/
def parsePat (s : List Char) : List RTok :=
  s.map (fun c => if c = '.' then RTok.dot else RTok.lit c)

/-- Match the token list against a prefix of the character list, as
`re` does at one start position. -/
def matchHere : List RTok → List Char → Bool
  | [], _ => true
  | _ :: _, [] => false
  | RTok.lit c :: ts, x :: xs => (x = c) && matchHere ts xs
  | RTok.dot :: ts, x :: xs => (x ≠ '\n') && matchHere ts xs

/-- `re.search`: the pattern matches at some start position. -/
def reSearch (toks : List RTok) (s : List Char) : Bool :=
  s.tails.any (fun t => matchHere toks t)

/-- Helper for `pdUnique`: keep the values not seen yet, in order. -/
def pdUniqueAux {α : Type} [DecidableEq α] (seen : List α) :
    List α → List α
  | [] => []
  | a :: l =>
    if a ∈ seen then pdUniqueAux seen l
    else a :: pdUniqueAux (a :: seen) l

/-- `pandas` first-occurrence `Series.unique()` on a list of values (all
`NaN`s collapse to one, as pandas does). -/
def pdUnique {α : Type} [DecidableEq α] (l : List α) : List α :=
  pdUniqueAux [] l

/-- Python `sorted` on a mixed list of `NaN`s and strings.  CPython's sort
raises `TypeError` on the first comparison between a `float` and a `str`;
such a comparison occurs whenever the list holds both kinds and has length
at least two (some adjacent or binary-insertion comparison crosses the type
boundary).  A list of only `NaN`s compares `nan < nan = False` throughout and
comes back unchanged. -/
def pySorted (l : List Cell) : Option (List Cell) :=
  if l.length ≤ 1 then some l
  else if l.any Option.isNone && l.any Option.isSome then none
  else if l.all Option.isNone then some l
  else some (((l.filterMap id).insertionSort (fun a b => strLe a b)).map some)

/-! ## PathSafetyGate (`utils_access_safety.py`) -/

/-- `AccessSafety`: the set of protected (read-only) path prefixes, already
normalised by `set_protected_paths`. -/
structure AccessSafety where
  read_only_paths : List String
deriving DecidableEq

namespace AccessSafety

/-- `is_protected_path`: the normalised path starts with some protected
prefix (paths are modelled as already in normal form; `str.startswith` is
prefixing on the character sequence). -/
def is_protected_path (s : AccessSafety) (path : String) : Bool :=
  s.read_only_paths.any (fun pre => pre.toList.isPrefixOf path.toList)

end AccessSafety

/-! ## MetadataModel (`models_metadata_model.py`) -/

/-- What `os.path.getsize` / `os.path.getmtime` return for one file. -/
structure FileInfo where
  size : Nat
  mtime : String
deriving DecidableEq

/-- The observable filesystem: `none` means the path does not exist, so
`os.path.getsize` raises. -/
def FS : Type := String → Option FileInfo

namespace MetadataModel

/-- One backup file: its name in the backup directory and the record set
written to it. -/
abbrev Backup := String × DF

/-- `f"metadata_backup_{timestamp}.xlsx"`. -/
def backupName (ts : String) : String :=
  "metadata_backup_" ++ ts ++ ".xlsx"

/-- The mutable attributes of a `MetadataModel` instance, plus `excelExists`
modelling `os.path.exists(self.excel_path)`. -/
structure ModelState where
  metadata_df : DF
  metadata_cache : List (String × Row)
  backups : List Backup
  excelExists : Bool
deriving DecidableEq

/-- `sorted(...)` over the backup directory listing: the loop deletes by
ascending file name, so we sort the `(name, content)` pairs by name. -/
def sortBackups (l : List Backup) : List Backup :=
  l.insertionSort (fun a b => strLe a.1 b.1)

/-- `while len(backups) > max_backups: os.remove(backups.pop(0))`. -/
def dropOldest {α : Type} (max_backups : Nat) : List α → List α
  | [] => []
  | a :: l =>
    if max_backups < (a :: l).length then dropOldest max_backups l
    else a :: l

/-- `cleanup_old_backups`: sort the backup directory by file name and delete
the front of the list while more than `max_backups` files remain. -/
def cleanup_old_backups (backups : List Backup) (max_backups : Nat) :
    List Backup :=
  dropOldest max_backups (sortBackups backups)

/-- `backup_current_metadata`: when the spreadsheet file exists, write the
current in-memory record set to `metadata_backup_{timestamp}.xlsx`
(overwriting a file of the same name) and run the cleanup with the default
`max_backups = 10`; otherwise do nothing. -/
def backup_current_metadata (st : ModelState) (ts : String) : ModelState :=
  if st.excelExists then
    { st with backups :=
        cleanup_old_backups (setKey st.backups (backupName ts) st.metadata_df) 10 }
  else st

/-- `save_database`: writing `self.metadata_df` to the spreadsheet succeeds
(I/O assumed healthy), after which the file exists. -/
def save_database (st : ModelState) : Bool × ModelState :=
  (true, { st with excelExists := true })

/-- `df[df['file_path'] != file_path]` followed by appending the new row
(`pd.concat(..., ignore_index=True)`): NaN paths compare unequal and are
kept. -/
def replaceRow (rows : List Row) (file_path : String) (row : Row) :
    List Row :=
  rows.filter (fun r => cellGet r "file_path" ≠ some file_path) ++ [row]

/-- The classification / document / free-form columns that
`add_files_basic_metadata` initialises to the empty string. -/
def emptyFields : Row :=
  [("project_number", some ""), ("department", some ""), ("area", some ""),
   ("type", some ""), ("source", some ""), ("revision", some ""),
   ("issue_status", some ""), ("work_status", some ""), ("scale", some ""),
   ("paper_size", some ""), ("applicable_codes", some ""),
   ("equipment_tags", some ""), ("related_documents", some ""),
   ("priority", some ""), ("milestone", some ""), ("contract_phase", some ""),
   ("budget_code", some ""), ("deliverable_id", some ""),
   ("approved_by", some ""), ("comments", some "")]

/-- `os.path.basename` for `/`-separated normalised paths. -/
def basename (p : String) : String :=
  String.mk ((p.toList.reverse.takeWhile (fun c => c ≠ '/')).reverse)

/-- `os.path.dirname` for `/`-separated normalised paths (the part before
the last separator). -/
def dirname (p : String) : String :=
  String.mk ((p.toList.reverse.dropWhile (fun c => c ≠ '/')).reverse.dropLast)

/-- `os.path.splitext(file_path)[1].lower()`: the extension from the last
dot of the base name, empty when there is no dot or only a leading one. -/
def extOf (p : String) : String :=
  let b := (basename p).toList
  let revAfter := b.reverse.takeWhile (fun c => c ≠ '.')
  if revAfter.length + 1 < b.length then
    (String.mk ('.' :: revAfter.reverse)).toLower
  else ""

/-- The default record synthesised for one path, or `none` when the path
does not exist and `os.path.getsize` raises. -/
def mkBasicRow (fs : FS) (now : String) (file_path : String) : Option Row :=
  match fs file_path with
  | none => none
  | some info => some
      ([("file_path", some file_path),
        ("file_name", some (basename file_path)),
        ("file_location", some (dirname file_path)),
        ("file_extension", some (extOf file_path)),
        ("file_size", some (toString info.size)),
        ("date_added", some now),
        ("last_modified", some info.mtime)] ++ emptyFields)

/-- The per-path loop of `add_files_basic_metadata`.  A missing path makes
`os.path.getsize` raise: the exception escapes to the method's handler, so
the loop stops, rows added so far stay in `self.metadata_df`, and the
method returns `False` without saving. -/
def addLoop (fs : FS) (now : String) : DF → List String → Bool × DF
  | df, [] => (true, df)
  | df, p :: rest =>
    match mkBasicRow fs now p with
    | none => (false, df)
    | some row => addLoop fs now ⟨df.cols, replaceRow df.rows p row⟩ rest

/-- `add_files_basic_metadata`: back up the current record set first, then
for each path synthesise a default record and replace any existing row for
that path, then save.  Note: the safety manager is never consulted. -/
def add_files_basic_metadata (fs : FS) (st : ModelState) (now ts : String)
    (file_paths : List String) : Bool × ModelState :=
  let st0 := backup_current_metadata st ts
  match addLoop fs now st0.metadata_df file_paths with
  | (true, df1) => save_database { st0 with metadata_df := df1 }
  | (false, df1) => (false, { st0 with metadata_df := df1 })

/-- `update_metadata`: refuse on a protected path; otherwise stamp
`last_modified`, replace the whole row for `file_path`, update the cache
entry, back up (the already-mutated set) and save. -/
def update_metadata (safety : AccessSafety) (st : ModelState)
    (now ts : String) (file_path : String) (metadata : Row) :
    Bool × ModelState :=
  if safety.is_protected_path file_path then (false, st)
  else
    let metadata1 := setKey metadata "last_modified" (some now)
    let st1 :=
      { st with
        metadata_df :=
          ⟨st.metadata_df.cols, replaceRow st.metadata_df.rows file_path metadata1⟩,
        metadata_cache := setKey st.metadata_cache file_path metadata1 }
    save_database (backup_current_metadata st1 ts)

/-- `if field in self.metadata_df.columns: return sorted(self.metadata_df[field].dropna().unique().tolist())`. -/
def get_unique_values (df : DF) (field : String) : List String :=
  if field ∈ df.cols then
    ((pdUnique ((colValues df field).filterMap id)).insertionSort
      (fun a b => strLe a b))
  else []

end MetadataModel

/-! ## Search criteria shared by `search_metadata` and the search model -/

/-- A criterion value: a scalar string or a list of strings. -/
inductive CriterionValue where
  | scalar (s : String)
  | values (l : List String)
deriving DecidableEq

/-- Python truthiness `if value:`: the empty string and the empty list are
falsy. -/
def CriterionValue.truthy : CriterionValue → Bool
  | .scalar s => !s.toList.isEmpty
  | .values l => !l.isEmpty

/-- The row predicate of one `search_metadata` criterion, translated from
`result[result[field].isin(value)]` and
`result[result[field].str.contains(str(value), case=False, na=False)]`:
list values test exact membership (a missing cell is in no list); a scalar
is compiled by `str.contains` as a case-insensitive regular expression
(`regex=True` is the pandas default), with missing cells excluded by
`na=False`. -/
def critKeep (field : String) (v : CriterionValue) (r : Row) : Bool :=
  match v with
  | .values l =>
    match cellGet r field with
    | some s => l.contains s
    | none => false
  | .scalar s =>
    match cellGet r field with
    | some t => reSearch (parsePat (lowerStr s)) (lowerStr t)
    | none => false

namespace MetadataModel

/-- The criteria loop of `search_metadata`.  A falsy value is skipped; a
truthy criterion on a nonexistent column raises `KeyError`
(`result[field]`), modelled as `none`. -/
def searchGo (cols : List String) (rows : List Row) :
    List (String × CriterionValue) → Option (List Row)
  | [] => some rows
  | (field, v) :: rest =>
    if v.truthy then
      if field ∈ cols then searchGo cols (rows.filter (critKeep field v)) rest
      else none
    else searchGo cols rows rest

/-- `search_metadata`: filter a copy of the record set criterion by
criterion; any exception is caught and an empty `pd.DataFrame()` (no
columns, no rows) is returned. -/
def search_metadata (df : DF) (criteria : List (String × CriterionValue)) :
    DF :=
  match searchGo df.cols df.rows criteria with
  | some rows => ⟨df.cols, rows⟩
  | none => ⟨[], []⟩

end MetadataModel

/-! ## MetadataManager (`utils_metadata_manager.py`): the variant whose
`get_unique_values` does not drop missing values. -/

namespace MetadataManager

/-- `sorted(self.metadata_df[field].unique().tolist())` — note: no
`.dropna()`, unlike `MetadataModel.get_unique_values`.  With missing values
present, `sorted` on the mixed `NaN`/`str` list raises `TypeError`, caught
by the handler which returns `[]`; a list of only `NaN`s sorts to itself. -/
def get_unique_values (df : DF) (field : String) : List Cell :=
  if field ∈ df.cols then
    match pySorted (pdUnique (colValues df field)) with
    | some l => l
    | none => []
  else []

end MetadataManager

/-! ## SearchModel (`models_search_model.py`) -/

namespace SearchModel

/-- The search parameters dictionary.  The Python cache key is
`str(search_params)`; the dictionaries are built with a fixed key order, so
that serialisation is injective and the cache is modelled as keyed by the
parameter value itself. -/
structure SearchParams where
  text : String
  filters : List (String × CriterionValue)
  sort_by : Option String
  sort_order : String
deriving DecidableEq

/-- One entry of `search_history`. -/
structure HistEntry where
  params : SearchParams
  timestamp : String
  results_count : Nat
deriving DecidableEq

/-- The mutable attributes of a `SearchModel` instance
(`max_history = 50` is a constant). -/
structure SearchState where
  search_cache : List (SearchParams × DF)
  search_history : List HistEntry
deriving DecidableEq

/-- `if cache_key in self.search_cache: ... self.search_cache[cache_key]`. -/
def lookupCache (c : List (SearchParams × DF)) (p : SearchParams) :
    Option DF :=
  lookupKey c p

/-- `str(x)` on a cell: `astype(str)` renders a missing value as the string
`"nan"`. -/
def cellStr (c : Cell) : String :=
  match c with
  | some s => s
  | none => "nan"

/-- `_build_search_query`: an empty (lowered) text returns a copy of the
whole record set; otherwise keep rows where any column, rendered with
`astype(str)` and lowered, matches the lowered text under
`str.contains` (regex containment).  All modelled columns hold object
dtype, matching `select_dtypes(include=['object'])`. -/
def buildSearchQuery (df : DF) (text : String) : DF :=
  let t := lowerStr text
  if t.isEmpty then df
  else
    ⟨df.cols,
     df.rows.filter (fun r =>
       df.cols.any (fun c =>
         reSearch (parsePat t) (lowerStr (cellStr (cellGet r c)))))⟩

/-- The row predicate of one `_apply_filters` filter: exact equality for a
scalar (`filtered_df[field] == value`; a missing cell compares unequal),
membership for a list. -/
def filtKeep (field : String) (v : CriterionValue) (r : Row) : Bool :=
  match v with
  | .values l =>
    match cellGet r field with
    | some s => l.contains s
    | none => false
  | .scalar s => cellGet r field = some s

/-- `_apply_filters`: skip falsy values and the sentinel `"All"`; a kept
filter on a nonexistent column raises `KeyError` (`filtered_df[field]`),
modelled as `none`, which `execute_search`'s handler turns into an error
signal. -/
def applyFilters (cols : List String) (rows : List Row) :
    List (String × CriterionValue) → Option (List Row)
  | [] => some rows
  | (field, v) :: rest =>
    if v.truthy && !(v = CriterionValue.scalar "All") then
      if field ∈ cols then
        applyFilters cols (rows.filter (filtKeep field v)) rest
      else none
    else applyFilters cols rows rest

/-- Row comparison used by `_sort_results`: compare the sort column's cells,
missing values last (`na_position='last'`), direction per `ascending`. -/
def keyLe (ascending : Bool) (a b : Cell) : Bool :=
  match a, b with
  | none, none => true
  | none, some _ => false
  | some _, none => true
  | some x, some y => if ascending then strLe x y else strLe y x

/-- `_sort_results`: when `sort_by` is truthy and an existing column, sort
by it (`ascending` iff `sort_order.lower() == 'asc'`); otherwise return the
rows unchanged.  (Modelled as a stable sort; pandas' default `quicksort`
kind makes no ordering guarantee between equal keys.) -/
def sortResults (df : DF) (sort_by : Option String) (sort_order : String) :
    DF :=
  match sort_by with
  | some c =>
    if !c.toList.isEmpty && c ∈ df.cols then
      ⟨df.cols,
       df.rows.insertionSort (fun r1 r2 =>
         keyLe (lowerStr sort_order = "asc".toList) (cellGet r1 c)
           (cellGet r2 c))⟩
    else df
  | none => df

/-- `cache_results`: store under the key, then, if more than 100 entries
remain, delete `list(keys)[:-50]` — every key but the 50 most recently
inserted. -/
def cache_results (cache : List (SearchParams × DF)) (key : SearchParams)
    (results : DF) : List (SearchParams × DF) :=
  let c := setKey cache key results
  if c.length > 100 then c.drop (c.length - 50) else c

/-- `_update_search_history`: push the entry at the front with the size of
the just-cached result set; drop the last entry when over `max_history =
50`.  The looked-up key was inserted by `cache_results` just before and is
always retained by its eviction, so the lookup cannot fail. -/
def updateSearchHistory (hist : List HistEntry) (p : SearchParams)
    (now : String) (cache : List (SearchParams × DF)) : List HistEntry :=
  let cnt :=
    match lookupCache cache p with
    | some d => d.rows.length
    | none => 0
  let h := { params := p, timestamp := now, results_count := cnt } :: hist
  if h.length > 50 then h.dropLast else h

/-- What `execute_search` signals back to the caller. -/
inductive SearchOutcome where
  | completed (df : DF)
  | error
deriving DecidableEq

/-- `execute_search` against the owning model's current `metadata_df`: cache
hit returns the cached frame at once (no history entry); otherwise text
stage, filter stage, sort stage, cache insertion, history entry; any
exception is caught and signalled as a search error, leaving the state
untouched. -/
def execute_search (meta : DF) (s : SearchState) (now : String)
    (p : SearchParams) : SearchOutcome × SearchState :=
  match lookupCache s.search_cache p with
  | some df => (.completed df, s)
  | none =>
    let q := buildSearchQuery meta p.text
    match applyFilters q.cols q.rows p.filters with
    | none => (.error, s)
    | some rows =>
      let sorted := sortResults ⟨q.cols, rows⟩ p.sort_by p.sort_order
      let cache1 := cache_results s.search_cache p sorted
      (.completed sorted,
       { search_cache := cache1,
         search_history := updateSearchHistory s.search_history p now cache1 })

/-- `clear_search_cache`. -/
def clear_search_cache (s : SearchState) : SearchState :=
  { s with search_cache := [] }

end SearchModel

/-! ## Mutating operations and the combined application state -/

namespace MetadataModel

/-- A mutating store operation with the clock values it observes. -/
inductive MOp where
  | addBasic (now ts : String) (paths : List String)
  | update (now ts : String) (file_path : String) (metadata : Row)

/-- Run one mutating operation (discarding its success flag). -/
def applyMOp (fs : FS) (safety : AccessSafety) (st : ModelState) :
    MOp → ModelState
  | .addBasic now ts paths => (add_files_basic_metadata fs st now ts paths).2
  | .update now ts p r => (update_metadata safety st now ts p r).2

/-- Run a sequence of mutating operations. -/
def applyMOps (fs : FS) (safety : AccessSafety) (st : ModelState)
    (ops : List MOp) : ModelState :=
  ops.foldl (applyMOp fs safety) st

/-- The rows of the record set keyed by `p`. -/
def rowsFor (rows : List Row) (p : String) : List Row :=
  rows.filter (fun r => cellGet r "file_path" = some p)

/-- At most one record per `file_path`. -/
def UniqueKeys (df : DF) : Prop :=
  ∀ p, (rowsFor df.rows p).length ≤ 1

/-- An `update` call whose record is keyed by the path it is stored under —
what the metadata editor supplies.  (`MetadataModel.update_metadata`, unlike
the manager variant, does not itself force `metadata['file_path']`.) -/
def WellKeyed : MOp → Prop
  | .addBasic _ _ _ => True
  | .update _ _ p r => cellGet r "file_path" = some p

end MetadataModel

/-- The metadata model together with the search model built over it; the two
objects share no mutable attribute. -/
structure AppState where
  model : MetadataModel.ModelState
  search : SearchModel.SearchState

/-- A mutating store operation lifted to the combined state: it runs on the
`MetadataModel` instance alone, exactly as `update_metadata` and
`add_files_basic_metadata` touch only `self` attributes of that class. -/
def applyAppOp (fs : FS) (safety : AccessSafety) (a : AppState)
    (op : MetadataModel.MOp) : AppState :=
  { model := MetadataModel.applyMOp fs safety a.model op, search := a.search }

/-- A sequence of mutating store operations on the combined state. -/
def applyAppOps (fs : FS) (safety : AccessSafety) (a : AppState)
    (ops : List MetadataModel.MOp) : AppState :=
  ops.foldl (applyAppOp fs safety) a

/-! ## Spec-side comparison definitions -/

/-- The specification's reading of one criterion ("a scalar criterion keeps
rows whose field value case-insensitively contains the given value as a
substring"), for comparison with the code's `critKeep`. -/
def critKeepSub (field : String) (v : CriterionValue) (r : Row) : Bool :=
  match v with
  | .values l =>
    match cellGet r field with
    | some s => l.contains s
    | none => false
  | .scalar s =>
    match cellGet r field with
    | some t => containsCI t s
    | none => false

/-- The search result as the claim describes it with substring semantics:
rows satisfying every non-empty criterion conjunctively. -/
def searchSpecClaim (df : DF) (criteria : List (String × CriterionValue)) :
    DF :=
  ⟨df.cols,
   df.rows.filter (fun r =>
     criteria.all (fun fc => !fc.2.truthy || critKeepSub fc.1 fc.2 r))⟩

/-- The characters the Python `re` module treats specially in a pattern:
`. ^ $ * + ? [ ] \ | ( )` and the curly braces (written `Char.ofNat 123`
and `Char.ofNat 125`).  A pattern avoiding all of them is a valid regular
expression that `re.search` matches as a plain literal. -/
def reMetachars : List Char :=
  ['.', '^', '$', '*', '+', '?', Char.ofNat 123, Char.ofNat 125,
   '[', ']', '\\', '|', '(', ')']

/-- The criterion value, if scalar, is (after lowering) free of every `re`
metacharacter, so `str.contains` treats it as a literal pattern and the
embedding's matcher provably coincides with Python's behaviour (lowering
maps letters to letters and never produces a metacharacter, so this is
equivalent to the original value being metacharacter-free). -/
def scalarIsLiteral : CriterionValue → Bool
  | CriterionValue.scalar s =>
    (lowerStr s).all (fun c => !reMetachars.contains c)
  | CriterionValue.values _ => true

/-! ## Concrete sample objects for witnesses and counterexamples -/

/-- A filesystem with one (protected) file. -/
def fsA : FS := fun p =>
  if p = "/protected/a.txt" then some ⟨5, "M0"⟩ else none

/-- A safety gate protecting the prefix `/protected`. -/
def safetyA : AccessSafety := ⟨["/protected"]⟩

/-- A record set with one record, for `/a`. -/
def dfA : DF :=
  ⟨["file_path", "department"],
   [[("file_path", some "/a"), ("department", some "Electrical")]]⟩

/-- A model state holding `dfA`, an existing spreadsheet file, no cache and
no backups. -/
def stA : MetadataModel.ModelState := ⟨dfA, [], [], true⟩

/-- An edited record for `/a` handed to `update_metadata`. -/
def rNew : Row := [("file_path", some "/a"), ("department", some "Civil")]

/-- The record set after `update_metadata(stA, "/a", rNew)` replaces the
row and stamps `last_modified` with the clock value `"T1"`. -/
def dfPostA : DF :=
  ⟨["file_path", "department"],
   [[("file_path", some "/a"), ("department", some "Civil"),
     ("last_modified", some "T1")]]⟩

/-- A record set whose `department` value `axb` is matched by the regex
`a.b` but does not contain the substring `a.b`. -/
def dfRegex : DF :=
  ⟨["file_path", "department"],
   [[("file_path", some "/a"), ("department", some "axb")]]⟩

/-- A record set whose `department` column is entirely missing values. -/
def dfMissing : DF :=
  ⟨["file_path", "department"], [[("file_path", some "/a")]]⟩

/-- Distinct search parameter values, used as cache keys. -/
def sampleParams (i : Nat) : SearchModel.SearchParams :=
  ⟨toString i, [], none, "asc"⟩

/-- A search state whose cache maps `sampleParams 1` to `dfA`. -/
def sstA : SearchModel.SearchState := ⟨[(sampleParams 1, dfA)], []⟩

/-- A full search-result cache of 100 distinct entries. -/
def cache100 : List (SearchModel.SearchParams × DF) :=
  (List.range 100).map (fun i => (sampleParams i, ⟨[], []⟩))

/-- One mutating operation: a successful update of `/a`. -/
def opsA : List MetadataModel.MOp :=
  [MetadataModel.MOp.update "T1" "TS1" "/a" rNew]

/-- The combined application state over `stA` and `sstA`. -/
def appA : AppState := ⟨stA, sstA⟩

/-! ## Supporting lemmas -/

namespace MetadataModel

instance : IsTotal Backup (fun a b => strLe a.1 b.1) :=
  ⟨fun a b => by
    simp only [strLe, decide_eq_true_eq]
    exact le_total a.1.toList b.1.toList⟩

instance : IsTrans Backup (fun a b => strLe a.1 b.1) :=
  ⟨fun _ _ _ h1 h2 => by
    simp only [strLe, decide_eq_true_eq] at h1 h2 ⊢
    exact le_trans h1 h2⟩

instance instIsTotalStrLe : IsTotal String (fun a b => strLe a b) :=
  ⟨fun a b => by
    simp only [strLe, decide_eq_true_eq]
    exact le_total a.toList b.toList⟩

instance instIsTransStrLe : IsTrans String (fun a b => strLe a b) :=
  ⟨fun _ _ _ h1 h2 => by
    simp only [strLe, decide_eq_true_eq] at h1 h2 ⊢
    exact le_trans h1 h2⟩

theorem dropOldest_eq_drop {α : Type} (m : Nat) (l : List α) :
    dropOldest m l = l.drop (l.length - m) := by
  induction l with
  | nil => simp [dropOldest]
  | cons a l ih =>
    simp only [dropOldest]
    by_cases h : m < (a :: l).length
    · rw [if_pos h, ih]
      have h2 : (a :: l).length - m = (l.length - m) + 1 := by
        simp only [List.length_cons]
        simp only [List.length_cons] at h
        omega
      rw [h2, List.drop_succ_cons]
    · rw [if_neg h]
      have h2 : (a :: l).length - m = 0 := by
        simp only [List.length_cons]
        simp only [List.length_cons] at h
        omega
      rw [h2, List.drop_zero]

theorem length_sortBackups (l : List Backup) :
    (sortBackups l).length = l.length :=
  (List.perm_insertionSort _ l).length_eq

theorem sorted_sortBackups (l : List Backup) :
    List.Sorted (fun a b => strLe a.1 b.1) (sortBackups l) :=
  List.sorted_insertionSort _ l

theorem cleanup_eq_drop (l : List Backup) (m : Nat) :
    cleanup_old_backups l m
      = (sortBackups l).drop ((sortBackups l).length - m) := by
  rw [cleanup_old_backups, dropOldest_eq_drop]

theorem length_cleanup_le (l : List Backup) (m : Nat) :
    (cleanup_old_backups l m).length ≤ m := by
  rw [cleanup_eq_drop, List.length_drop]
  omega

theorem metadata_df_backup_current (st : ModelState) (ts : String) :
    (backup_current_metadata st ts).metadata_df = st.metadata_df := by
  rw [backup_current_metadata]
  by_cases h : st.excelExists <;> simp [h]

theorem backups_backup_current_le (st : ModelState) (ts : String)
    (h : st.backups.length ≤ 10) :
    (backup_current_metadata st ts).backups.length ≤ 10 := by
  rw [backup_current_metadata]
  by_cases hex : st.excelExists
  · simp only [hex, if_pos]
    exact length_cleanup_le _ 10
  · simp only [hex, Bool.false_eq_true, if_neg, not_false_iff]
    exact h

theorem backups_add (fs : FS) (st : ModelState) (now ts : String)
    (paths : List String) :
    (add_files_basic_metadata fs st now ts paths).2.backups
      = (backup_current_metadata st ts).backups := by
  rw [add_files_basic_metadata]
  cases h : addLoop fs now (backup_current_metadata st ts).metadata_df paths
    with
  | mk b df1 => cases b <;> simp [save_database]

theorem metadata_df_add (fs : FS) (st : ModelState) (now ts : String)
    (paths : List String) :
    (add_files_basic_metadata fs st now ts paths).2.metadata_df
      = (addLoop fs now st.metadata_df paths).2 := by
  rw [add_files_basic_metadata, metadata_df_backup_current]
  cases h : addLoop fs now st.metadata_df paths with
  | mk b df1 => cases b <;> simp [save_database]

theorem backups_applyMOp_le (fs : FS) (safety : AccessSafety)
    (st : ModelState) (op : MOp) (h : st.backups.length ≤ 10) :
    (applyMOp fs safety st op).backups.length ≤ 10 := by
  cases op with
  | addBasic now ts paths =>
    rw [applyMOp, backups_add]
    exact backups_backup_current_le st ts h
  | update now ts p r =>
    rw [applyMOp, update_metadata]
    by_cases hp : safety.is_protected_path p
    · simp only [hp, if_pos]
      exact h
    · simp only [hp, Bool.false_eq_true, if_neg, not_false_iff,
        save_database]
      exact backups_backup_current_le _ ts h

theorem backups_applyMOps_le (fs : FS) (safety : AccessSafety)
    (ops : List MOp) :
    ∀ st : ModelState, st.backups.length ≤ 10 →
      (applyMOps fs safety st ops).backups.length ≤ 10 := by
  induction ops with
  | nil => intro st h; exact h
  | cons op rest ih =>
    intro st h
    simp only [applyMOps, List.foldl_cons]
    simp only [applyMOps] at ih
    exact ih _ (backups_applyMOp_le fs safety st op h)

end MetadataModel

namespace MetadataModel

theorem rowsFor_replaceRow_self (rows : List Row) (p : String) (row : Row)
    (h : cellGet row "file_path" = some p) :
    rowsFor (replaceRow rows p row) p = [row] := by
  rw [rowsFor, replaceRow, List.filter_append, List.filter_filter]
  have h1 : rows.filter
      (fun r => decide (cellGet r "file_path" = some p)
        && decide (cellGet r "file_path" ≠ some p)) = [] := by
    rw [List.filter_eq_nil_iff]
    intro a _
    by_cases hc : cellGet a "file_path" = some p <;> simp [hc]
  rw [h1]
  simp [h]

theorem rowsFor_replaceRow_ne (rows : List Row) (p : String) (row : Row)
    (q : String) (hq : q ≠ p) (h : cellGet row "file_path" = some p) :
    rowsFor (replaceRow rows p row) q = rowsFor rows q := by
  rw [rowsFor, replaceRow, List.filter_append, List.filter_filter]
  have h2 : List.filter (fun r => decide (cellGet r "file_path" = some q))
      [row] = [] := by
    simp only [List.filter, h]
    have : ¬ (some p = some q) := by
      intro hc
      exact hq (Option.some.inj hc).symm
    simp [this]
  rw [h2, List.append_nil, rowsFor]
  apply List.filter_congr
  intro a _
  by_cases hc : cellGet a "file_path" = some q
  · have hne : cellGet a "file_path" ≠ some p := by
      rw [hc]
      intro hcc
      exact hq (Option.some.inj hcc)
    simp [hc, hne]
    exact hq
  · simp [hc]

theorem uniqueRows_replaceRow (rows : List Row) (p : String) (row : Row)
    (h : cellGet row "file_path" = some p)
    (hu : ∀ q, (rowsFor rows q).length ≤ 1) :
    ∀ q, (rowsFor (replaceRow rows p row) q).length ≤ 1 := by
  intro q
  by_cases hq : q = p
  · subst hq
    rw [rowsFor_replaceRow_self rows q row h]
    exact le_refl 1
  · rw [rowsFor_replaceRow_ne rows p row q hq h]
    exact hu q

theorem cellGet_mkBasicRow {fs : FS} {now p : String} {row : Row}
    (h : mkBasicRow fs now p = some row) :
    cellGet row "file_path" = some p := by
  rw [mkBasicRow] at h
  cases hf : fs p with
  | none => rw [hf] at h; exact absurd h (by simp)
  | some info =>
    rw [hf] at h
    have h2 := Option.some.inj h
    rw [← h2]
    rfl

theorem uniqueRows_addLoop (fs : FS) (now : String) (paths : List String) :
    ∀ df : DF, (∀ q, (rowsFor df.rows q).length ≤ 1) →
      ∀ q, (rowsFor (addLoop fs now df paths).2.rows q).length ≤ 1 := by
  induction paths with
  | nil => intro df h q; exact h q
  | cons p rest ih =>
    intro df h q
    simp only [addLoop]
    cases hm : mkBasicRow fs now p with
    | none => exact h q
    | some row =>
      exact ih ⟨df.cols, replaceRow df.rows p row⟩
        (uniqueRows_replaceRow df.rows p row (cellGet_mkBasicRow hm) h) q

theorem cellGet_nil (c : String) : cellGet ([] : Row) c = none := rfl

theorem cellGet_cons (a : String × Cell) (r : Row) (c : String) :
    cellGet (a :: r) c = if a.1 = c then a.2 else cellGet r c := by
  by_cases h : a.1 = c <;> simp [cellGet, List.find?, h]

theorem cellGet_append_single_ne (r : Row) (k : String) (v : Cell)
    (c : String) (hne : c ≠ k) :
    cellGet (r ++ [(k, v)]) c = cellGet r c := by
  induction r with
  | nil =>
    have hkc : ¬ (k = c) := fun hc => hne hc.symm
    simp [cellGet_cons, cellGet_nil, hkc]
  | cons a r ih =>
    rw [List.cons_append, cellGet_cons, cellGet_cons, ih]

theorem cellGet_map_set_ne (r : Row) (k : String) (v : Cell) (c : String)
    (hne : c ≠ k) :
    cellGet (r.map (fun p => if p.1 = k then (k, v) else p)) c
      = cellGet r c := by
  induction r with
  | nil => rfl
  | cons a r ih =>
    rw [List.map_cons, cellGet_cons, cellGet_cons, ih]
    by_cases hk : a.1 = k
    · have hkc : ¬ (k = c) := fun hc => hne hc.symm
      have hac : ¬ (a.1 = c) := by rw [hk]; exact hkc
      simp [hk, hkc, hac]
    · simp [hk]

theorem cellGet_setKey_ne (r : Row) (k : String) (v : Cell) (c : String)
    (hne : c ≠ k) :
    cellGet (setKey r k v) c = cellGet r c := by
  rw [setKey]
  by_cases ha : r.any (fun p => p.1 = k)
  · rw [if_pos ha]
    exact cellGet_map_set_ne r k v c hne
  · rw [if_neg ha]
    exact cellGet_append_single_ne r k v c hne

theorem uniqueKeys_applyMOp (fs : FS) (safety : AccessSafety)
    (st : ModelState) (op : MOp) (h : UniqueKeys st.metadata_df)
    (hw : WellKeyed op) : UniqueKeys (applyMOp fs safety st op).metadata_df := by
  cases op with
  | addBasic now ts paths =>
    intro q
    simp only [applyMOp]
    rw [metadata_df_add]
    exact uniqueRows_addLoop fs now paths st.metadata_df h q
  | update now ts p r =>
    intro q
    simp only [applyMOp, update_metadata]
    by_cases hp : safety.is_protected_path p
    · simp only [hp, if_pos]
      exact h q
    · simp only [hp, Bool.false_eq_true, if_neg, not_false_iff,
        save_database, metadata_df_backup_current]
      have hkey : cellGet (setKey r "last_modified" (some now)) "file_path"
          = some p := by
        rw [cellGet_setKey_ne r "last_modified" (some now) "file_path"
          (by decide)]
        exact hw
      exact uniqueRows_replaceRow st.metadata_df.rows p _ hkey h q

theorem uniqueKeys_applyMOps (fs : FS) (safety : AccessSafety)
    (ops : List MOp) :
    ∀ st : ModelState, UniqueKeys st.metadata_df →
      (∀ op ∈ ops, WellKeyed op) →
      UniqueKeys (applyMOps fs safety st ops).metadata_df := by
  induction ops with
  | nil => intro st h _; exact h
  | cons op rest ih =>
    intro st h hops
    simp only [applyMOps, List.foldl_cons]
    simp only [applyMOps] at ih
    exact ih _ (uniqueKeys_applyMOp fs safety st op h
      (hops op (List.mem_cons_self op rest)))
      (fun o ho => hops o (List.mem_cons_of_mem op ho))

end MetadataModel

namespace MetadataModel

theorem cleanup_singleton (b : Backup) :
    cleanup_old_backups [b] 10 = [b] := by
  simp [cleanup_old_backups, sortBackups, List.insertionSort, dropOldest]

theorem backup_current_of_empty (st : ModelState) (ts : String)
    (hex : st.excelExists = true) (hb : st.backups = []) :
    (backup_current_metadata st ts).backups
      = [(backupName ts, st.metadata_df)] := by
  simp [backup_current_metadata, hex, hb, setKey, cleanup_singleton]

end MetadataModel

/-! ## Claim theorems and witnesses -/

/-- C1 (corrected): the backup written inside `add_files_basic_metadata` is
the pre-mutation record set, but the backup written inside `update_metadata`
is the post-mutation record set — `backup_current_metadata` runs only after
the row for `file_path` has been replaced and `last_modified` stamped.
(Stated from a state with an existing spreadsheet and an empty backup
directory, so the written backup is the one retained.) -/
theorem C1_backup_timing (safety : AccessSafety) (fs : FS)
    (st : MetadataModel.ModelState) (now ts p : String) (r : Row)
    (paths : List String)
    (hprot : safety.is_protected_path p = false)
    (hex : st.excelExists = true)
    (hb : st.backups = []) :
    (MetadataModel.update_metadata safety st now ts p r).2.backups
        = [(MetadataModel.backupName ts,
            ⟨st.metadata_df.cols,
             MetadataModel.replaceRow st.metadata_df.rows p
               (setKey r "last_modified" (some now))⟩)]
    ∧ (MetadataModel.add_files_basic_metadata fs st now ts paths).2.backups
        = [(MetadataModel.backupName ts, st.metadata_df)] := by
  constructor
  · have h1 : ¬ (safety.is_protected_path p = true) := by simp [hprot]
    rw [MetadataModel.update_metadata, if_neg h1]
    simp only [MetadataModel.save_database]
    rw [MetadataModel.backup_current_of_empty]
    · simp [hex]
    · simp [hb]
  · rw [MetadataModel.backups_add, MetadataModel.backup_current_of_empty st ts hex hb]

/-- C1 witness: the amended statement evaluated at a concrete state. -/
theorem C1_backup_timing_witness :
    safetyA.is_protected_path "/a" = false
    ∧ stA.excelExists = true ∧ stA.backups = []
    ∧ (MetadataModel.update_metadata safetyA stA "T1" "TS1" "/a" rNew).2.backups
        = [(MetadataModel.backupName "TS1",
            ⟨stA.metadata_df.cols,
             MetadataModel.replaceRow stA.metadata_df.rows "/a"
               (setKey rNew "last_modified" (some "T1"))⟩)] :=
  ⟨by decide, by decide, by decide,
   (C1_backup_timing safetyA fsA stA "T1" "TS1" "/a" rNew []
     (by decide) (by decide) (by decide)).1⟩

/-- C1 counterexample: on a concrete store holding one record for `/a`,
`update_metadata` writes a backup equal to the post-mutation record set
(`department = Civil`, `last_modified` stamped), which differs from the
record set prior to replacing the row — refuting "the backup taken inside
update equals the record set prior to replacing the row". -/
theorem C1_counterexample :
    (MetadataModel.update_metadata safetyA stA "T1" "20240102_000000" "/a"
        rNew).2.backups.map Prod.snd = [dfPostA]
    ∧ dfPostA ≠ stA.metadata_df := by
  constructor
  · decide
  · decide

/-- C2 (corrected): `add_files_basic_metadata` performs no writability
check at all — the safety gate is never consulted — so for a protected path
that exists on disk it creates the record and reports success rather than
refusing.  (Only `update_metadata` checks `is_protected_path`.) -/
theorem C2_add_ignores_protection (safety : AccessSafety) (fs : FS)
    (st : MetadataModel.ModelState) (now ts p : String)
    (_hprot : safety.is_protected_path p = true)
    (info : FileInfo) (hfs : fs p = some info) :
    (MetadataModel.add_files_basic_metadata fs st now ts [p]).1 = true
    ∧ ∃ row, MetadataModel.mkBasicRow fs now p = some row
        ∧ MetadataModel.rowsFor
            (MetadataModel.add_files_basic_metadata fs st now ts
              [p]).2.metadata_df.rows p = [row] := by
  cases hm : MetadataModel.mkBasicRow fs now p with
  | none => simp [MetadataModel.mkBasicRow, hfs] at hm
  | some row =>
    have hloop : MetadataModel.addLoop fs now st.metadata_df [p]
        = (true, ⟨st.metadata_df.cols,
            MetadataModel.replaceRow st.metadata_df.rows p row⟩) := by
      simp [MetadataModel.addLoop, hm]
    refine ⟨?_, row, rfl, ?_⟩
    · rw [MetadataModel.add_files_basic_metadata]
      simp only [MetadataModel.metadata_df_backup_current, hloop,
        MetadataModel.save_database]
    · rw [MetadataModel.metadata_df_add, hloop]
      exact MetadataModel.rowsFor_replaceRow_self st.metadata_df.rows p row
        (MetadataModel.cellGet_mkBasicRow hm)

/-- C2 witness: the amended statement at a concrete protected path. -/
theorem C2_add_ignores_protection_witness :
    safetyA.is_protected_path "/protected/a.txt" = true
    ∧ fsA "/protected/a.txt" = some ⟨5, "M0"⟩
    ∧ (MetadataModel.add_files_basic_metadata fsA stA "T1" "TS1"
        ["/protected/a.txt"]).1 = true :=
  ⟨by decide, by decide,
   (C2_add_ignores_protection safetyA fsA stA "T1" "TS1" "/protected/a.txt"
     (by decide) ⟨5, "M0"⟩ (by decide)).1⟩

/-- C2 counterexample: `/protected/a.txt` is classified protected, yet
`add_files_basic_metadata` on it returns success and stores exactly one
record for it — refuting "add_basic refuses to create or replace a record
for that path, returning a failure signal for it". -/
theorem C2_counterexample :
    safetyA.is_protected_path "/protected/a.txt" = true
    ∧ (MetadataModel.add_files_basic_metadata fsA stA "T1" "TS1"
        ["/protected/a.txt"]).1 = true
    ∧ (MetadataModel.rowsFor
        (MetadataModel.add_files_basic_metadata fsA stA "T1" "TS1"
          ["/protected/a.txt"]).2.metadata_df.rows
        "/protected/a.txt").length = 1 := by
  refine ⟨by decide, by decide, by decide⟩

/-- C3 (confirmed): `update_metadata` on a protected path returns `False`
and leaves the whole state — record set, metadata cache, backups, all of it
— exactly as it was: the guard runs before any mutation. -/
theorem C3_update_protected_noop (safety : AccessSafety)
    (st : MetadataModel.ModelState) (now ts p : String) (r : Row)
    (h : safety.is_protected_path p = true) :
    MetadataModel.update_metadata safety st now ts p r = (false, st) := by
  rw [MetadataModel.update_metadata, if_pos h]

/-- C3 witness: a concrete protected update is a failing no-op. -/
theorem C3_update_protected_noop_witness :
    safetyA.is_protected_path "/protected/x" = true
    ∧ MetadataModel.update_metadata safetyA stA "T1" "TS1" "/protected/x" rNew
        = (false, stA) :=
  ⟨by decide,
   C3_update_protected_noop safetyA stA "T1" "TS1" "/protected/x" rNew
     (by decide)⟩

/-- C4 (confirmed): starting from a state within the bound, any finite
sequence of mutating operations keeps the number of retained backups at or
below the maximum of 10; and `cleanup_old_backups` keeps exactly the tail
of the name-sorted listing, so the deleted backups are the
lexicographically-smallest (oldest-timestamped) names, each at most every
kept name, taken in ascending order. -/
theorem C4_backup_bound (fs : FS) (safety : AccessSafety)
    (st : MetadataModel.ModelState) (ops : List MetadataModel.MOp)
    (h : st.backups.length ≤ 10) :
    (MetadataModel.applyMOps fs safety st ops).backups.length ≤ 10
    ∧ (∀ (l : List MetadataModel.Backup) (m : Nat),
        MetadataModel.cleanup_old_backups l m
          = (MetadataModel.sortBackups l).drop
              ((MetadataModel.sortBackups l).length - m)
        ∧ (MetadataModel.cleanup_old_backups l m).length ≤ m
        ∧ ∀ d ∈ (MetadataModel.sortBackups l).take
              ((MetadataModel.sortBackups l).length - m),
            ∀ kept ∈ MetadataModel.cleanup_old_backups l m,
              strLe d.1 kept.1 = true) := by
  refine ⟨MetadataModel.backups_applyMOps_le fs safety ops st h,
    fun l m => ⟨MetadataModel.cleanup_eq_drop l m,
      MetadataModel.length_cleanup_le l m, fun d hd kept hk => ?_⟩⟩
  rw [MetadataModel.cleanup_eq_drop] at hk
  exact (MetadataModel.sorted_sortBackups l).rel_of_mem_take_of_mem_drop hd hk

/-- C4 witness: the bound holds after a concrete mutating operation. -/
theorem C4_backup_bound_witness :
    stA.backups.length ≤ 10
    ∧ (MetadataModel.applyMOps fsA safetyA stA opsA).backups.length ≤ 10 :=
  ⟨by decide, (C4_backup_bound fsA safetyA stA opsA (by decide)).1⟩

/-- C5 (confirmed): with update records keyed by the path they are stored
under (as the metadata editor supplies them), at most one record per
`file_path` is an invariant of every sequence of mutating operations;
`add_basic([p, p])` leaves exactly one record for `p`; and a successful
`update(p, r)` leaves, as the only record for `p`, the entire supplied row
with `last_modified` stamped — replacement, not field merging. -/
theorem C5_unique_records (fs : FS) (safety : AccessSafety)
    (st : MetadataModel.ModelState) (ops : List MetadataModel.MOp)
    (now ts p : String) (r : Row)
    (h1 : MetadataModel.UniqueKeys st.metadata_df)
    (hops : ∀ op ∈ ops, MetadataModel.WellKeyed op) :
    MetadataModel.UniqueKeys
      (MetadataModel.applyMOps fs safety st ops).metadata_df
    ∧ (∀ info : FileInfo, fs p = some info →
        (MetadataModel.rowsFor
          (MetadataModel.add_files_basic_metadata fs st now ts
            [p, p]).2.metadata_df.rows p).length = 1)
    ∧ (safety.is_protected_path p = false →
        cellGet r "file_path" = some p →
        MetadataModel.rowsFor
          (MetadataModel.update_metadata safety st now ts p
            r).2.metadata_df.rows p
          = [setKey r "last_modified" (some now)]) := by
  refine ⟨MetadataModel.uniqueKeys_applyMOps fs safety ops st h1 hops,
    ?_, ?_⟩
  · intro info hfs
    cases hm : MetadataModel.mkBasicRow fs now p with
    | none => simp [MetadataModel.mkBasicRow, hfs] at hm
    | some row =>
      have hloop : MetadataModel.addLoop fs now st.metadata_df [p, p]
          = (true, ⟨st.metadata_df.cols,
              MetadataModel.replaceRow
                (MetadataModel.replaceRow st.metadata_df.rows p row) p
                row⟩) := by
        simp [MetadataModel.addLoop, hm]
      rw [MetadataModel.metadata_df_add, hloop]
      rw [MetadataModel.rowsFor_replaceRow_self _ p row
        (MetadataModel.cellGet_mkBasicRow hm)]
      rfl
  · intro hprot hkey
    have h1' : ¬ (safety.is_protected_path p = true) := by simp [hprot]
    rw [MetadataModel.update_metadata, if_neg h1']
    simp only [MetadataModel.save_database,
      MetadataModel.metadata_df_backup_current]
    exact MetadataModel.rowsFor_replaceRow_self st.metadata_df.rows p _
      (by rw [MetadataModel.cellGet_setKey_ne r "last_modified" (some now)
        "file_path" (by decide)]; exact hkey)

/-- C5 witness: the invariant holds across a concrete update. -/
theorem C5_unique_records_witness :
    MetadataModel.UniqueKeys stA.metadata_df
    ∧ (∀ op ∈ opsA, MetadataModel.WellKeyed op)
    ∧ MetadataModel.UniqueKeys
        (MetadataModel.applyMOps fsA safetyA stA opsA).metadata_df := by
  have h1 : MetadataModel.UniqueKeys stA.metadata_df := fun q =>
    List.length_filter_le _ _
  have h2 : ∀ op ∈ opsA, MetadataModel.WellKeyed op := by
    intro op hop
    rw [opsA, List.mem_singleton] at hop
    subst hop
    exact rfl
  exact ⟨h1, h2,
    (C5_unique_records fsA safetyA stA opsA "T1" "TS1" "/a" rNew h1 h2).1⟩

namespace MetadataModel

theorem searchGo_eq_filter (cols : List String)
    (criteria : List (String × CriterionValue))
    (h : ∀ fc ∈ criteria, fc.1 ∈ cols) :
    ∀ rows : List Row,
      searchGo cols rows criteria
        = some (rows.filter (fun r =>
            criteria.all (fun fc => !fc.2.truthy || critKeep fc.1 fc.2 r))) := by
  induction criteria with
  | nil =>
    intro rows
    simp [searchGo]
  | cons fc rest ih =>
    intro rows
    obtain ⟨f, v⟩ := fc
    simp only [searchGo]
    have hrest : ∀ fc ∈ rest, fc.1 ∈ cols :=
      fun fc hfc => h fc (List.mem_cons_of_mem _ hfc)
    by_cases ht : v.truthy = true
    · rw [if_pos ht, if_pos (h (f, v) (List.mem_cons_self _ _)), ih hrest,
        List.filter_filter]
      congr 1
      apply List.filter_congr
      intro r _
      simp [List.all_cons, ht, Bool.and_comm]
    · rw [if_neg ht, ih hrest]
      congr 1
      apply List.filter_congr
      intro r _
      have ht' : v.truthy = false := by
        cases hv : v.truthy
        · rfl
        · exact absurd hv ht
      simp [List.all_cons, ht']

theorem searchGo_none (cols : List String)
    (criteria : List (String × CriterionValue)) (f : String)
    (v : CriterionValue) (hmem : (f, v) ∈ criteria) (ht : v.truthy = true)
    (hf : f ∉ cols) :
    ∀ rows : List Row, searchGo cols rows criteria = none := by
  induction criteria with
  | nil => cases hmem
  | cons fc rest ih =>
    intro rows
    obtain ⟨f', v'⟩ := fc
    simp only [searchGo]
    rcases List.mem_cons.mp hmem with heq | hmem'
    · obtain ⟨h1, h2⟩ := Prod.mk.injEq .. ▸ heq
      subst h1
      subst h2
      rw [if_pos ht, if_neg hf]
    · by_cases ht' : v'.truthy = true
      · rw [if_pos ht']
        by_cases hf' : f' ∈ cols
        · rw [if_pos hf']
          exact ih hmem' _
        · rw [if_neg hf']
      · rw [if_neg ht']
        exact ih hmem' _

end MetadataModel

theorem matchHere_lits (cs : List Char) :
    ∀ xs : List Char, matchHere (cs.map RTok.lit) xs = cs.isPrefixOf xs := by
  induction cs with
  | nil => intro xs; simp [matchHere, List.isPrefixOf]
  | cons c cs ih =>
    intro xs
    cases xs with
    | nil => simp [matchHere, List.isPrefixOf]
    | cons x xs =>
      by_cases h : x = c
      · subst h
        simp [matchHere, List.isPrefixOf, ih]
      · have h2 : ¬ (c = x) := fun hc => h hc.symm
        simp [matchHere, List.isPrefixOf, h, h2]

theorem parsePat_eq_map_lit (s : List Char) (h : ∀ c ∈ s, c ≠ '.') :
    parsePat s = s.map RTok.lit := by
  rw [parsePat]
  apply List.map_congr_left
  intro c hc
  simp [h c hc]

theorem reSearch_lits (pat hay : List Char) (h : ∀ c ∈ pat, c ≠ '.') :
    reSearch (parsePat pat) hay = charsContains hay pat := by
  rw [parsePat_eq_map_lit pat h, reSearch, charsContains]
  congr 1
  funext t
  exact matchHere_lits pat t

theorem critKeep_eq_sub (f : String) (v : CriterionValue) (r : Row)
    (hv : scalarIsLiteral v = true) :
    critKeep f v r = critKeepSub f v r := by
  cases v with
  | values l => rfl
  | scalar s =>
    simp only [critKeep, critKeepSub]
    cases cellGet r f with
    | none => rfl
    | some t =>
      have hdot : ∀ c ∈ lowerStr s, c ≠ '.' := by
        intro c hc hceq
        simp only [scalarIsLiteral, List.all_eq_true] at hv
        have h2 := hv c hc
        rw [hceq] at h2
        simp [reMetachars] at h2
      show reSearch (parsePat (lowerStr s)) (lowerStr t) = containsCI t s
      rw [reSearch_lits (lowerStr s) (lowerStr t) hdot, containsCI]

theorem allCrit_eq_sub (criteria : List (String × CriterionValue))
    (hlit : ∀ fc ∈ criteria, scalarIsLiteral fc.2 = true) (r : Row) :
    criteria.all (fun fc => !fc.2.truthy || critKeep fc.1 fc.2 r)
      = criteria.all (fun fc => !fc.2.truthy || critKeepSub fc.1 fc.2 r) := by
  induction criteria with
  | nil => rfl
  | cons fc rest ih =>
    rw [List.all_cons, List.all_cons,
      critKeep_eq_sub fc.1 fc.2 r (hlit fc (List.mem_cons_self _ _)),
      ih (fun fc hfc => hlit fc (List.mem_cons_of_mem _ hfc))]

namespace SearchModel

theorem buildSearchQuery_cols (df : DF) (text : String) :
    (buildSearchQuery df text).cols = df.cols := by
  rw [buildSearchQuery]
  by_cases h : (lowerStr text).isEmpty = true <;> simp [h]

theorem applyFilters_none (cols : List String)
    (filters : List (String × CriterionValue)) (f : String)
    (v : CriterionValue) (hmem : (f, v) ∈ filters) (ht : v.truthy = true)
    (hall : v ≠ CriterionValue.scalar "All") (hf : f ∉ cols) :
    ∀ rows : List Row, applyFilters cols rows filters = none := by
  induction filters with
  | nil => cases hmem
  | cons fc rest ih =>
    intro rows
    obtain ⟨f', v'⟩ := fc
    simp only [applyFilters]
    rcases List.mem_cons.mp hmem with heq | hmem'
    · obtain ⟨h1, h2⟩ := Prod.mk.injEq .. ▸ heq
      subst h1
      subst h2
      rw [if_pos (by simp [ht, hall]), if_neg hf]
    · by_cases hcond : (v'.truthy && !(v' = CriterionValue.scalar "All")) = true
      · rw [if_pos hcond]
        by_cases hf' : f' ∈ cols
        · rw [if_pos hf']
          exact ih hmem' _
        · rw [if_neg hf']
      · rw [if_neg hcond]
        exact ih hmem' _

theorem execute_search_hit (meta : DF) (s : SearchState) (now : String)
    (p : SearchParams) (res : DF)
    (h : lookupCache s.search_cache p = some res) :
    execute_search meta s now p = (.completed res, s) := by
  rw [execute_search, h]

end SearchModel

theorem applyAppOps_search (fs : FS) (safety : AccessSafety)
    (ops : List MetadataModel.MOp) :
    ∀ a : AppState, (applyAppOps fs safety a ops).search = a.search := by
  induction ops with
  | nil => intro a; rfl
  | cons op rest ih =>
    intro a
    simp only [applyAppOps, List.foldl_cons]
    simp only [applyAppOps] at ih
    exact ih _

theorem mem_pdUniqueAux {α : Type} [DecidableEq α] (l : List α) :
    ∀ (seen : List α) (a : α),
      a ∈ pdUniqueAux seen l ↔ a ∈ l ∧ a ∉ seen := by
  induction l with
  | nil =>
    intro seen a
    simp [pdUniqueAux]
  | cons b l ih =>
    intro seen a
    simp only [pdUniqueAux]
    by_cases hb : b ∈ seen
    · rw [if_pos hb, ih]
      constructor
      · rintro ⟨h1, h2⟩
        exact ⟨List.mem_cons_of_mem _ h1, h2⟩
      · rintro ⟨h1, h2⟩
        rcases List.mem_cons.mp h1 with rfl | h1
        · exact absurd hb h2
        · exact ⟨h1, h2⟩
    · rw [if_neg hb]
      simp only [List.mem_cons, ih]
      constructor
      · rintro (rfl | ⟨h1, h2⟩)
        · exact ⟨Or.inl rfl, hb⟩
        · refine ⟨Or.inr h1, fun hs => h2 (Or.inr hs)⟩
      · rintro ⟨h1, h2⟩
        by_cases hab : a = b
        · exact Or.inl hab
        · right
          rcases h1 with rfl | h1
          · exact absurd rfl hab
          · refine ⟨h1, fun hmem => ?_⟩
            rcases hmem with rfl | hs
            · exact hab rfl
            · exact h2 hs

theorem nodup_pdUniqueAux {α : Type} [DecidableEq α] (l : List α) :
    ∀ seen : List α, (pdUniqueAux seen l).Nodup := by
  induction l with
  | nil =>
    intro seen
    simp [pdUniqueAux]
  | cons b l ih =>
    intro seen
    simp only [pdUniqueAux]
    by_cases hb : b ∈ seen
    · rw [if_pos hb]
      exact ih seen
    · rw [if_neg hb]
      rw [List.nodup_cons]
      refine ⟨fun hmem => ?_, ih (b :: seen)⟩
      exact ((mem_pdUniqueAux l (b :: seen) b).mp hmem).2
        (List.mem_cons_self b seen)

theorem mem_pdUnique {α : Type} [DecidableEq α] (l : List α) (a : α) :
    a ∈ pdUnique l ↔ a ∈ l := by
  rw [pdUnique, mem_pdUniqueAux]
  simp

theorem nodup_pdUnique {α : Type} [DecidableEq α] (l : List α) :
    (pdUnique l).Nodup :=
  nodup_pdUniqueAux l []

theorem pdUniqueAux_all_mem {α : Type} [DecidableEq α] (l : List α) :
    ∀ seen : List α, (∀ v ∈ l, v ∈ seen) → pdUniqueAux seen l = [] := by
  induction l with
  | nil => intro seen _; rfl
  | cons b l ih =>
    intro seen h
    simp only [pdUniqueAux]
    rw [if_pos (h b (List.mem_cons_self _ _))]
    exact ih seen (fun v hv => h v (List.mem_cons_of_mem _ hv))

theorem pdUnique_all_none (l : List Cell) (hne : l ≠ [])
    (h : ∀ v ∈ l, v = none) : pdUnique l = [none] := by
  cases l with
  | nil => exact absurd rfl hne
  | cons a l =>
    have ha : a = none := h a (List.mem_cons_self _ _)
    subst ha
    rw [pdUnique]
    simp only [pdUniqueAux, List.not_mem_nil, if_neg, not_false_iff]
    rw [pdUniqueAux_all_mem l [none] (fun v hv => by
      rw [h v (List.mem_cons_of_mem _ hv)]
      exact List.mem_singleton.mpr rfl)]

theorem get_unique_values_spec (df : DF) (field : String)
    (hf : field ∈ df.cols) :
    List.Sorted (fun a b => strLe a b)
      (MetadataModel.get_unique_values df field)
    ∧ (MetadataModel.get_unique_values df field).Nodup
    ∧ ∀ a, a ∈ MetadataModel.get_unique_values df field
          ↔ some a ∈ colValues df field := by
  rw [MetadataModel.get_unique_values, if_pos hf]
  refine ⟨List.sorted_insertionSort _ _, ?_, ?_⟩
  · exact ((List.perm_insertionSort _ _).nodup_iff).mpr (nodup_pdUnique _)
  · intro a
    rw [(List.perm_insertionSort _ _).mem_iff, mem_pdUnique,
      List.mem_filterMap]
    simp

theorem manager_unique_values_all_missing (df : DF) (field : String)
    (hf : field ∈ df.cols) (hne : colValues df field ≠ [])
    (h : ∀ v ∈ colValues df field, v = none) :
    MetadataManager.get_unique_values df field = [none] := by
  rw [MetadataManager.get_unique_values, if_pos hf,
    pdUnique_all_none _ hne h]
  rfl

/-- C6 (corrected): for criteria on existing columns whose scalar values
contain no `re` metacharacter, `search_metadata` returns exactly the rows
satisfying all non-empty criteria conjunctively — list criteria by exact
membership, scalar criteria by case-insensitive substring containment
(`searchSpecClaim`, the claim's own reading): a metacharacter-free pattern
is matched by `re.search` as a plain literal, where the embedding is
faithful.  For values containing metacharacters the code diverges from
substring semantics, because `str.contains` applies the value as a
case-insensitive regular expression (`regex=True` is the pandas default)
— see the counterexample at the `.` wildcard. -/
theorem C6_search_semantics (df : DF)
    (criteria : List (String × CriterionValue))
    (h : ∀ fc ∈ criteria, fc.1 ∈ df.cols)
    (hlit : ∀ fc ∈ criteria, scalarIsLiteral fc.2 = true) :
    MetadataModel.search_metadata df criteria
      = searchSpecClaim df criteria := by
  rw [MetadataModel.search_metadata,
    MetadataModel.searchGo_eq_filter df.cols criteria h df.rows,
    searchSpecClaim]
  show DF.mk df.cols _ = DF.mk df.cols _
  congr 1
  apply List.filter_congr
  intro r _
  exact allCrit_eq_sub criteria hlit r

/-- C6 witness: a metacharacter-free criterion on an existing column. -/
theorem C6_search_semantics_witness :
    (∀ fc ∈ [("department", CriterionValue.scalar "ele")], fc.1 ∈ dfA.cols)
    ∧ (∀ fc ∈ [("department", CriterionValue.scalar "ele")],
        scalarIsLiteral fc.2 = true)
    ∧ MetadataModel.search_metadata dfA
        [("department", CriterionValue.scalar "ele")]
      = searchSpecClaim dfA [("department", CriterionValue.scalar "ele")] := by
  have h : ∀ fc ∈ [("department", CriterionValue.scalar "ele")],
      fc.1 ∈ dfA.cols := by decide
  have hlit : ∀ fc ∈ [("department", CriterionValue.scalar "ele")],
      scalarIsLiteral fc.2 = true := by decide
  exact ⟨h, hlit, C6_search_semantics dfA _ h hlit⟩

/-- C6 counterexample: the criterion value `a.b` keeps the row whose
`department` is `axb` (the dot is a regex wildcard), while under the
claim's substring semantics that row would be excluded — the code's result
differs from the claimed one. -/
theorem C6_counterexample :
    MetadataModel.search_metadata dfRegex
        [("department", CriterionValue.scalar "a.b")]
      = ⟨["file_path", "department"],
         [[("file_path", some "/a"), ("department", some "axb")]]⟩
    ∧ searchSpecClaim dfRegex [("department", CriterionValue.scalar "a.b")]
      = ⟨["file_path", "department"], []⟩ := by
  constructor
  · decide
  · decide

/-- C7 (corrected): a truthy criterion naming a nonexistent column is not
ignored.  In `search_metadata` the column lookup raises `KeyError`, the
handler catches it and the whole search returns an empty `pd.DataFrame()`;
in `execute_search` the same lookup inside `_apply_filters` raises and the
call signals a search error, leaving the search state untouched.  (Only
the sort stage treats a nonexistent column permissively.) -/
theorem C7_bad_column_fatal :
    (∀ (df : DF) (criteria : List (String × CriterionValue))
        (f : String) (v : CriterionValue),
      (f, v) ∈ criteria → v.truthy = true → f ∉ df.cols →
      MetadataModel.search_metadata df criteria = ⟨[], []⟩)
    ∧ (∀ (meta : DF) (s : SearchModel.SearchState) (now : String)
        (p : SearchModel.SearchParams) (f : String) (v : CriterionValue),
      (f, v) ∈ p.filters → v.truthy = true →
      v ≠ CriterionValue.scalar "All" → f ∉ meta.cols →
      SearchModel.lookupCache s.search_cache p = none →
      SearchModel.execute_search meta s now p
        = (SearchModel.SearchOutcome.error, s)) := by
  constructor
  · intro df criteria f v hmem ht hf
    rw [MetadataModel.search_metadata,
      MetadataModel.searchGo_none df.cols criteria f v hmem ht hf df.rows]
  · intro meta s now p f v hmem ht hall hf hc
    have hf' : f ∉ (SearchModel.buildSearchQuery meta p.text).cols := by
      rw [SearchModel.buildSearchQuery_cols]
      exact hf
    have hfl := SearchModel.applyFilters_none
      (SearchModel.buildSearchQuery meta p.text).cols p.filters f v hmem ht
      hall hf' (SearchModel.buildSearchQuery meta p.text).rows
    simp only [SearchModel.execute_search, hc, hfl]

/-- C7 witness: both fatal behaviours at a concrete nonexistent column. -/
theorem C7_bad_column_fatal_witness :
    (("zz", CriterionValue.scalar "x") ∈ [("zz", CriterionValue.scalar "x")]
      ∧ (CriterionValue.scalar "x").truthy = true
      ∧ "zz" ∉ dfA.cols
      ∧ MetadataModel.search_metadata dfA
          [("zz", CriterionValue.scalar "x")] = ⟨[], []⟩)
    ∧ (SearchModel.lookupCache
          (⟨[], []⟩ : SearchModel.SearchState).search_cache
          ⟨"", [("zz", CriterionValue.scalar "x")], none, "asc"⟩ = none
      ∧ SearchModel.execute_search dfA ⟨[], []⟩ "T"
          ⟨"", [("zz", CriterionValue.scalar "x")], none, "asc"⟩
          = (SearchModel.SearchOutcome.error, ⟨[], []⟩)) := by
  refine ⟨⟨by decide, by decide, by decide, ?_⟩, by decide, ?_⟩
  · exact C7_bad_column_fatal.1 dfA _ "zz" (CriterionValue.scalar "x")
      (by decide) (by decide) (by decide)
  · exact C7_bad_column_fatal.2 dfA ⟨[], []⟩ "T" _ "zz"
      (CriterionValue.scalar "x") (by decide) (by decide) (by decide)
      (by decide) (by decide)

/-- C7 counterexample: with the nonexistent-column criterion the search
returns the empty frame, while with the criterion removed it returns the
whole record set — refuting "returns the same result as the search with
the nonexistent-column criterion removed". -/
theorem C7_counterexample :
    MetadataModel.search_metadata dfA
        [("nonexistent", CriterionValue.scalar "x")] = ⟨[], []⟩
    ∧ MetadataModel.search_metadata dfA [] = dfA := by
  constructor
  · decide
  · decide

/-- C8 (corrected): when the 101st entry is inserted, the eviction
`list(keys)[:-50]` deletes every key but the 50 most recently inserted —
it removes the oldest 51 entries, leaving the 50 most recent (the new
entry included), not 51. -/
theorem C8_cache_eviction (cache : List (SearchModel.SearchParams × DF))
    (key : SearchModel.SearchParams) (v : DF)
    (h1 : SearchModel.lookupCache cache key = none)
    (h2 : cache.length = 100) :
    SearchModel.cache_results cache key v = (cache ++ [(key, v)]).drop 51
    ∧ (SearchModel.cache_results cache key v).length = 50 := by
  have hany : cache.any (fun p => p.1 = key) = false := by
    rw [List.any_eq_false]
    intro x hx
    rw [SearchModel.lookupCache, lookupKey] at h1
    cases hf : cache.find? (fun p => p.1 = key) with
    | some q => rw [hf] at h1; simp at h1
    | none => exact fun hxk => (List.find?_eq_none.mp hf x hx) hxk
  have hset : setKey cache key v = cache ++ [(key, v)] := by
    rw [setKey, if_neg (by rw [hany]; exact Bool.false_ne_true)]
  have hlen : (cache ++ [(key, v)]).length = 101 := by simp [h2]
  have hmain : SearchModel.cache_results cache key v
      = (cache ++ [(key, v)]).drop 51 := by
    rw [SearchModel.cache_results, hset, if_pos (by rw [hlen]; omega), hlen]
  refine ⟨hmain, ?_⟩
  rw [hmain, List.length_drop, hlen]

set_option maxRecDepth 4000 in
/-- C8 witness: inserting a fresh key into a full 100-entry cache leaves
50 entries. -/
theorem C8_cache_eviction_witness :
    SearchModel.lookupCache cache100 (sampleParams 100) = none
    ∧ cache100.length = 100
    ∧ (SearchModel.cache_results cache100 (sampleParams 100)
        ⟨[], []⟩).length = 50 :=
  ⟨by decide, by decide,
   (C8_cache_eviction cache100 (sampleParams 100) ⟨[], []⟩
     (by decide) (by decide)).2⟩

set_option maxRecDepth 4000 in
/-- C8 counterexample: inserting the 101st entry leaves 50 cached entries,
not the claimed 51. -/
theorem C8_counterexample :
    (SearchModel.cache_results cache100 (sampleParams 100)
        ⟨[], []⟩).length = 50
    ∧ (SearchModel.cache_results cache100 (sampleParams 100)
        ⟨[], []⟩).length ≠ 51 := by
  constructor
  · decide
  · decide

/-- C9 (corrected): `MetadataModel.get_unique_values` does return the
distinct non-missing values of an existing column in ascending
lexicographic order (and `[]` on a nonexistent field); but the
`MetadataManager` variant has no `.dropna()` — on a column whose values
are all missing it returns `[nan]`, so a missing value can appear in its
result. -/
theorem C9_unique_values :
    (∀ (df : DF) (field : String), field ∈ df.cols →
        List.Sorted (fun a b => strLe a b)
          (MetadataModel.get_unique_values df field)
        ∧ (MetadataModel.get_unique_values df field).Nodup
        ∧ ∀ a, a ∈ MetadataModel.get_unique_values df field
              ↔ some a ∈ colValues df field)
    ∧ (∀ (df : DF) (field : String), field ∉ df.cols →
        MetadataModel.get_unique_values df field = [])
    ∧ (∀ (df : DF) (field : String), field ∈ df.cols →
        colValues df field ≠ [] →
        (∀ v ∈ colValues df field, v = none) →
        MetadataManager.get_unique_values df field = [none]) := by
  refine ⟨fun df field hf => get_unique_values_spec df field hf,
    fun df field hf => ?_, manager_unique_values_all_missing⟩
  rw [MetadataModel.get_unique_values, if_neg hf]

/-- C9 witness: the three behaviours at concrete record sets. -/
theorem C9_unique_values_witness :
    ("department" ∈ dfA.cols
      ∧ (MetadataModel.get_unique_values dfA "department").Nodup)
    ∧ ("zz" ∉ dfA.cols ∧ MetadataModel.get_unique_values dfA "zz" = [])
    ∧ ("department" ∈ dfMissing.cols
      ∧ colValues dfMissing "department" ≠ []
      ∧ (∀ v ∈ colValues dfMissing "department", v = none)
      ∧ MetadataManager.get_unique_values dfMissing "department"
          = [none]) :=
  ⟨⟨by decide, (C9_unique_values.1 dfA "department" (by decide)).2.1⟩,
   ⟨by decide, C9_unique_values.2.1 dfA "zz" (by decide)⟩,
   by decide, by decide, by decide,
   C9_unique_values.2.2 dfMissing "department" (by decide) (by decide)
     (by decide)⟩

/-- C9 counterexample: `department` is an existing column of `dfMissing`
whose only value is missing, and the `MetadataManager` variant of
`get_unique_values` returns a result containing that missing value —
refuting "missing values never appear in the result". -/
theorem C9_counterexample :
    "department" ∈ dfMissing.cols
    ∧ none ∈ MetadataManager.get_unique_values dfMissing "department" := by
  constructor
  · decide
  · decide

/-- C10 (confirmed): the mutating store operations touch only the
`MetadataModel` instance — the search-result cache is left untouched by
any sequence of them — so a params value cached before the mutations still
hits: `execute_search` returns the previously cached result set against
the mutated record set. -/
theorem C10_cache_immune (fs : FS) (safety : AccessSafety) (a : AppState)
    (ops : List MetadataModel.MOp) (now : String)
    (p : SearchModel.SearchParams) (res : DF)
    (h : SearchModel.lookupCache a.search.search_cache p = some res) :
    (applyAppOps fs safety a ops).search = a.search
    ∧ SearchModel.execute_search
        (applyAppOps fs safety a ops).model.metadata_df
        (applyAppOps fs safety a ops).search now p
        = (SearchModel.SearchOutcome.completed res, a.search) := by
  have hs := applyAppOps_search fs safety ops a
  refine ⟨hs, ?_⟩
  rw [hs]
  exact SearchModel.execute_search_hit _ a.search now p res h

/-- C10 witness: a cached search still hits after a concrete update. -/
theorem C10_cache_immune_witness :
    SearchModel.lookupCache appA.search.search_cache (sampleParams 1)
        = some dfA
    ∧ SearchModel.execute_search
        (applyAppOps fsA safetyA appA opsA).model.metadata_df
        (applyAppOps fsA safetyA appA opsA).search "T2" (sampleParams 1)
        = (SearchModel.SearchOutcome.completed dfA, appA.search) :=
  ⟨by decide,
   (C10_cache_immune fsA safetyA appA opsA "T2" (sampleParams 1) dfA
     (by decide)).2⟩
